import Mathlib

/-!
Verification of the qiskit-terra pipeline engine and instruction schedulers
(`src/qiskit/transpiler/passmanager.py`,
 `src/qiskit/transpiler/passes/scheduling/asap.py`,
 `src/qiskit/transpiler/passes/scheduling/alap.py`).

The two scheduler files in the repository reference helper state
(`qubit_time_available`, `clbit_readable`, `clbit_writeable`,
`pad_with_delays`, `t0`, `t1`) that is declared in code not present under
`src/` (the files import `base_scheduler`, which is absent).  Wherever a
definition below fills such a gap it carries a doc comment starting with
`Modelled from the spec:` and follows §4.3 of the specification; everything
else is translated directly from the Python source.
-/

/-- Duration of an operation: absent, a resolved numeric duration (in the
scheduler's time unit), or an unresolved symbolic (parameterized) expression,
mirroring `node.op.duration` being `None`, an int, or a `ParameterExpression`. -/
inductive Duration where
  | unset : Duration
  | dt : Nat → Duration
  | param : String → Duration
deriving DecidableEq, Repr

/-- An operation instance (`node.op`): kind name, whether it is the
measurement-like (B-track writing) kind (`isinstance(node.op, Measure)`),
its duration, its numeric parameters (used as part of the calibration key),
and `op.condition_bits` (the B-tracks of its classical condition). -/
structure Op where
  name : String
  isMeasure : Bool
  duration : Duration
  params : List Nat
  conditionBits : List Nat
deriving DecidableEq, Repr

/-- A graph node: an operation plus its A-track arguments (`node.qargs`,
as qubit indices — `bit_indices` in the source maps bit objects to indices,
here bits are their indices) and B-track arguments (`node.cargs`). -/
structure Node where
  op : Op
  qargs : List Nat
  cargs : List Nat
deriving DecidableEq, Repr

/-- Calibration table: operation-kind name ↦ ((qubit indices, parameter
values) ↦ duration), mirroring `dag.calibrations[op.name][(indices, params)]`. -/
abbrev CalTable := List (String × List ((List Nat × List Nat) × Duration))

/-- The program graph (`DAGCircuit`): registers, declared track counts, the
calibration table, the operation nodes in the graph's deterministic
topological order (`dag.topological_op_nodes()`), plus the schedule
annotations `duration` and `unit` set by the schedulers. -/
structure DAGCircuit where
  name : String
  metadata : String
  qregs : List String
  numQubits : Nat
  numClbits : Nat
  calibrations : CalTable
  nodes : List Node
  duration : Option Nat
  unit : Option String
deriving DecidableEq, Repr

/-- Calibration lookup, `dag.calibrations[name][(tuple(indices), tuple(params))]`,
guarded by `dag.has_calibration_for(node)` (present iff both keys exist). -/
def calLookup (cal : CalTable) (name : String) (indices : List Nat)
    (params : List Nat) : Option Duration :=
  match cal.lookup name with
  | none => none
  | some tbl => tbl.lookup (indices, params)

/-- Duration resolution for one node (`asap.py` lines 75–80 / `alap.py`
lines 74–79): a node with `duration = None` takes the calibration entry's
duration when `dag.has_calibration_for(node)`, otherwise stays unresolved. -/
def resolveDuration (cal : CalTable) (n : Node) : Duration :=
  match n.op.duration with
  | Duration.unset =>
      match calLookup cal n.op.name n.qargs n.op.params with
      | some d => d
      | none => Duration.unset
  | d => d

/-- Python `repr` of the list of qubit indices, as interpolated into the
error messages (`f"... on qubits {indices} ..."`). -/
def fmtIndices (l : List Nat) : String :=
  match l with
  | [] => "[]"
  | x :: xs =>
      "[" ++ toString x ++ xs.foldl (fun acc y => acc ++ ", " ++ toString y) "" ++ "]"

/-- The resolution-error message of `asap.py` line 84 / `alap.py` line 83. -/
def durationNotFoundMsg (n : Node) : String :=
  "Duration of " ++ n.op.name ++ " on qubits " ++ fmtIndices n.qargs ++ " is not found."

/-- The resolution-error message of `asap.py` lines 89–90 / `alap.py`
lines 88–89 for an unresolved symbolic duration. -/
def parameterizedDurationMsg (n : Node) (e : String) : String :=
  "Parameterized duration (" ++ e ++ ") of " ++ n.op.name ++ " on qubits " ++
    fmtIndices n.qargs ++ " is not bounded."

/-- A scheduled operation: the emitted node together with the start time the
scheduler computed for it (for the latest-first pass the clock runs from the
end of the schedule, i.e. the recorded value is the reversed-clock start). -/
structure TimedNode where
  node : Node
  start : Nat
deriving DecidableEq, Repr

/-- Modelled from the spec: the per-track scheduler state of §4.3 — the
available-at timestamp per A-track (`qubit_time_available` / `idle_after`,
one per qubit index) and the readable/writeable timestamps per B-track
(`clbit_readable` / `clbit_writeable`), all initially 0; these dictionaries
are referenced by `asap.py`/`alap.py` but declared in code missing from
`src/`.  `emitted` is the output operation sequence in emission order. -/
structure SchedState where
  qta : Nat → Nat
  readable : Nat → Nat
  writeable : Nat → Nat
  emitted : List TimedNode

/-- Initial scheduler state: every timestamp 0, nothing emitted. -/
def SchedState.init : SchedState :=
  { qta := fun _ => 0, readable := fun _ => 0, writeable := fun _ => 0, emitted := [] }

/-- The two dual algorithms differ only in two discrete choices:
whether the clbit offset `delta` equals the duration on measurement-like
nodes (`asap.py` line 97: `delta = node.op.duration if isinstance(node.op, Measure) else 0`)
or on the other nodes (`alap.py` line 96), and whether a measurement's write
is recorded at the node's recorded start or stop timestamp. -/
structure SchedPolicy where
  deltaOnMeasure : Bool
  measArrivalAtStart : Bool
deriving DecidableEq, Repr

/-- Earliest-first policy: `delta = duration if Measure else 0`, and a
measurement's write lands on the B-track at the node's stop time. -/
def asapPolicy : SchedPolicy := { deltaOnMeasure := true, measArrivalAtStart := false }

/-- Latest-first policy: `delta = 0 if Measure else duration`, and (mirror
construction, reversed clock) a measurement's write — which happens at the
node's forward-time end — lands at the node's reversed-clock start. -/
def alapPolicy : SchedPolicy := { deltaOnMeasure := false, measArrivalAtStart := true }

/-- Clbit offset `delta` of `asap.py` line 97 / `alap.py` line 96. -/
def SchedPolicy.deltaOf (pol : SchedPolicy) (isMeasure : Bool) (d : Nat) : Nat :=
  if isMeasure = pol.deltaOnMeasure then d else 0

/-- Timestamp recorded on a written B-track (see `SchedPolicy`). -/
def SchedPolicy.arrival (pol : SchedPolicy) (start stop : Nat) : Nat :=
  if pol.measArrivalAtStart then start else stop

/-- Maximum of a list of timestamps (Python `max(itertools.chain(...))`;
the model returns 0 on an empty collection). -/
def natMax (l : List Nat) : Nat := l.foldr max 0

/-- Clbit availability selector, `asap.py` lines 93–95 / `alap.py` lines
92–94: `clbit_writeable if isinstance(node.op, Measure) else clbit_readable`. -/
def clbitAvail (st : SchedState) (isMeasure : Bool) : Nat → Nat :=
  if isMeasure then st.writeable else st.readable

/-- Start time of a node, `asap.py` lines 99–104 / `alap.py` lines 98–103:
the maximum of the available-at times of its A-tracks and of
`clbit_time_available[c] - delta` over `node.cargs + node.op.condition_bits`
(truncated subtraction; the Python maximum is likewise never negative since
every operation also has A-track terms that are ≥ 0). -/
def nodeStart (pol : SchedPolicy) (st : SchedState) (n : Node) (d : Nat) : Nat :=
  natMax (n.qargs.map st.qta ++
    (n.cargs ++ n.op.conditionBits).map
      (fun c => clbitAvail st n.op.isMeasure c - pol.deltaOf n.op.isMeasure d))

/-- An idle (Delay) operation of the given duration on one A-track. -/
def delayNode (d : Nat) (q : Nat) : Node :=
  { op := { name := "delay", isMeasure := false, duration := Duration.dt d,
            params := [], conditionBits := [] },
    qargs := [q], cargs := [] }

/-- Idle padding inserted in front of a node (`asap.py` lines 109–113 /
`alap.py` lines 107–111): for each A-track of the node whose available-at
time is behind the start time, a Delay covering the gap. -/
def delaysFor (st : SchedState) (qargs : List Nat) (start : Nat) : List TimedNode :=
  qargs.filterMap (fun q =>
    if st.qta q < start then
      some { node := delayNode (start - st.qta q) q, start := st.qta q }
    else none)

/-- Modelled from the spec: the timestamp updates after placing a node
(§4.3: "set each involved A-track's available-at to start time + duration,
and each written B-track's writeable time (or readable time, for ordinary
reads) accordingly"); the update code is part of the helpers missing from
`src/`.  Every A-track of the node advances to `stop`; a measurement-like
node records its write on each of its B-track arguments (both timestamps, at
the policy's arrival point); an ordinary read (any other B-track dependency,
including condition bits) advances that track's readable time to `stop`. -/
def updState (pol : SchedPolicy) (st : SchedState) (n : Node)
    (start stop : Nat) : SchedState :=
  { st with
    qta := fun q => if q ∈ n.qargs then stop else st.qta q
    readable := fun c =>
      if n.op.isMeasure && decide (c ∈ n.cargs) then pol.arrival start stop
      else if c ∈ n.cargs ++ n.op.conditionBits then stop
      else st.readable c
    writeable := fun c =>
      if n.op.isMeasure && decide (c ∈ n.cargs) then pol.arrival start stop
      else st.writeable c }

/-- One iteration of the scheduling loop for one node: duration validation
and resolution exactly as in `asap.py` lines 74–91 / `alap.py` lines 73–90
(the resolved duration is written back into the emitted node, as the source
mutates `node.op.duration` in place), then start-time computation, idle
padding and the timestamp updates. -/
def schedStep (pol : SchedPolicy) (cal : CalTable) (st : SchedState)
    (n : Node) : Except String SchedState :=
  match resolveDuration cal n with
  | Duration.unset => Except.error (durationNotFoundMsg n)
  | Duration.param e => Except.error (parameterizedDurationMsg n e)
  | Duration.dt d =>
      let n2 : Node := { n with op := { n.op with duration := Duration.dt d } }
      let start := nodeStart pol st n d
      let stop := start + d
      let dels := delaysFor st n.qargs start
      Except.ok (updState pol
        { st with emitted := st.emitted ++ dels ++ [{ node := n2, start := start }] }
        n start stop)

/-- The scheduling loop over a node sequence. -/
def schedNodes (pol : SchedPolicy) (cal : CalTable) :
    SchedState → List Node → Except String SchedState
  | st, [] => Except.ok st
  | st, n :: rest =>
      match schedStep pol cal st n with
      | Except.error e => Except.error e
      | Except.ok st2 => schedNodes pol cal st2 rest

/-- Overall span (`circuit_duration = max(idle_after.values())`, where the
B-track entries of `idle_after` stay 0 in the source): the maximum
available-at time over the graph's A-tracks. -/
def spanOf (numQubits : Nat) (st : SchedState) : Nat :=
  natMax ((List.range numQubits).map st.qta)

/-- Trailing idle fill (`asap.py` lines 118–122 / `alap.py` lines 116–120):
every A-track whose available-at time is behind the overall span receives an
idle operation covering the gap; B-tracks are never padded. -/
def trailingDelays (numQubits : Nat) (st : SchedState) (T : Nat) : List TimedNode :=
  (List.range numQubits).filterMap (fun q =>
    if st.qta q < T then
      some { node := delayNode (T - st.qta q) q, start := st.qta q }
    else none)

/-- The shared core of both passes: run the loop, compute the span, append
the trailing idle fill; returns the emitted sequence (in emission order) and
the span. -/
def coreRun (pol : SchedPolicy) (cal : CalTable) (numQubits : Nat)
    (nodes : List Node) : Except String (List TimedNode × Nat) :=
  match schedNodes pol cal SchedState.init nodes with
  | Except.error e => Except.error e
  | Except.ok st =>
      let T := spanOf numQubits st
      Except.ok (st.emitted ++ trailingDelays numQubits st T, T)

/-- Physical-circuit precondition, `len(dag.qregs) != 1 or dag.qregs.get("q") is None`. -/
def physicalCheck (dag : DAGCircuit) : Bool :=
  dag.qregs.length == 1 && dag.qregs.contains "q"

/-- Result of a scheduling pass: the new graph plus the schedule (each
emitted operation with its computed start time; for the latest-first pass
the start values are on the reversed clock, measured from the schedule end). -/
structure SchedResult where
  dag : DAGCircuit
  schedule : List TimedNode
deriving DecidableEq, Repr

/-- The earliest-first pass, `ASAPSchedule.run` (`asap.py` lines 48–131):
physical check, forward scheduling loop over the topological order, trailing
idle fill, and the output graph carrying the input's name, metadata,
registers and calibrations with `duration`/`unit` set.  `timeUnit` is
`self.property_set["time_unit"]`. -/
def ASAPSchedule.run (timeUnit : String) (dag : DAGCircuit) :
    Except String SchedResult :=
  if physicalCheck dag then
    match coreRun asapPolicy dag.calibrations dag.numQubits dag.nodes with
    | Except.error e => Except.error e
    | Except.ok (emitted, T) =>
        Except.ok
          { dag := { dag with nodes := emitted.map TimedNode.node,
                              duration := some T, unit := some timeUnit },
            schedule := emitted }
  else Except.error "ASAP schedule runs on physical circuits only"

/-- The latest-first pass, `ALAPSchedule.run` (`alap.py` lines 48–130): the
mirror construction — the loop walks `reversed(list(dag.topological_op_nodes()))`
and emits with `apply_operation_front`, so the forward node order of the
output graph is the reverse of the emission order. -/
def ALAPSchedule.run (timeUnit : String) (dag : DAGCircuit) :
    Except String SchedResult :=
  if physicalCheck dag then
    match coreRun alapPolicy dag.calibrations dag.numQubits dag.nodes.reverse with
    | Except.error e => Except.error e
    | Except.ok (emitted, T) =>
        Except.ok
          { dag := { dag with nodes := (emitted.map TimedNode.node).reverse,
                              duration := some T, unit := some timeUnit },
            schedule := emitted }
  else Except.error "ALAP schedule runs on physical circuits only"

/-! ### Concrete graphs used by individual claims -/

/-- Node A of the 3-node chain: duration 10 on track 0. -/
def nodeA : Node :=
  { op := { name := "a", isMeasure := false, duration := Duration.dt 10,
            params := [], conditionBits := [] }, qargs := [0], cargs := [] }

/-- Node B of the 3-node chain: duration 20 on track 0. -/
def nodeB : Node :=
  { op := { name := "b", isMeasure := false, duration := Duration.dt 20,
            params := [], conditionBits := [] }, qargs := [0], cargs := [] }

/-- Node C of the 3-node chain: duration 10 on track 0. -/
def nodeC : Node :=
  { op := { name := "c", isMeasure := false, duration := Duration.dt 10,
            params := [], conditionBits := [] }, qargs := [0], cargs := [] }

/-- The 3-node dependency chain A→B→C on one physical track. -/
def chainDag : DAGCircuit :=
  { name := "chain", metadata := "meta", qregs := ["q"], numQubits := 1,
    numClbits := 0, calibrations := [], nodes := [nodeA, nodeB, nodeC],
    duration := none, unit := none }

/-- A measurement-like node writing B-track 0 from A-track 0, duration 10. -/
def nodeM : Node :=
  { op := { name := "measure", isMeasure := true, duration := Duration.dt 10,
            params := [], conditionBits := [] }, qargs := [0], cargs := [0] }

/-- A node on A-track 1 of duration 2, conditioned on B-track 0. -/
def nodeR : Node :=
  { op := { name := "x", isMeasure := false, duration := Duration.dt 2,
            params := [], conditionBits := [0] }, qargs := [1], cargs := [] }

/-- An unconditioned node on A-track 1 of duration 10. -/
def nodeBig : Node :=
  { op := { name := "y", isMeasure := false, duration := Duration.dt 10,
            params := [], conditionBits := [] }, qargs := [1], cargs := [] }

/-- A graph on which the two schedulers disagree about the span: a
measurement into B-track 0, a gate conditioned on that track, then a long
gate on the same A-track as the conditioned gate. -/
def divergeDag : DAGCircuit :=
  { name := "diverge", metadata := "meta", qregs := ["q"], numQubits := 2,
    numClbits := 1, calibrations := [],
    nodes := [nodeM, nodeR, nodeBig], duration := none, unit := none }

/-- Witness for C10 at a concrete graph: both passes succeed on the 1-node
graph below and the theorem's conclusions evaluate as stated. -/
def frameDag : DAGCircuit :=
  { name := "frame", metadata := "md", qregs := ["q"], numQubits := 1,
    numClbits := 0, calibrations := [("g", [(([0], []), Duration.dt 3)])],
    nodes := [{ op := { name := "g", isMeasure := false, duration := Duration.unset,
                        params := [], conditionBits := [] },
                qargs := [0], cargs := [] }],
    duration := none, unit := none }

/-- The resolution error a node triggers, if any: the not-found message when
its duration stays unresolved, the parameterized-duration message when it is
symbolic, nothing when it resolves to a number. -/
def resolutionError (cal : CalTable) (n : Node) : Option String :=
  match resolveDuration cal n with
  | Duration.unset => some (durationNotFoundMsg n)
  | Duration.param e => some (parameterizedDurationMsg n e)
  | Duration.dt _ => none

/-- A resolvable node used by the C3 witness. -/
def goodNode : Node :=
  { op := { name := "g", isMeasure := false, duration := Duration.dt 5,
            params := [], conditionBits := [] }, qargs := [0], cargs := [] }

/-- A node with no duration and no calibration entry. -/
def badNode : Node :=
  { op := { name := "h", isMeasure := false, duration := Duration.unset,
            params := [], conditionBits := [] }, qargs := [1], cargs := [] }

/-- Graph whose second node cannot resolve its duration. -/
def badDag : DAGCircuit :=
  { name := "bad", metadata := "meta", qregs := ["q"], numQubits := 2,
    numClbits := 0, calibrations := [], nodes := [goodNode, badNode],
    duration := none, unit := none }

/-! ### Pass manager (`src/qiskit/transpiler/passmanager.py`) -/

/-- Shared, typed key-value scratch space for one pipeline run
(`PropertySet`): a mapping from name to value. -/
abbrev PropertySet := List (String × Nat)

/-- The program object fed through `PassManager.run` (`QuantumCircuit`);
only its identity and name are observable to the claims below. -/
structure Circuit where
  name : String
  body : Nat
deriving DecidableEq, Repr

/-- A pass (`BasePass`): a unit of work with an identity and a single
`run` capability over the program and the property set. -/
structure BasePass where
  name : String
  run : Circuit → PropertySet → Circuit × PropertySet

/-- One pass set (`self._pass_sets` element): the list of passes plus the
flow-controller parameters, which the specification (§Pass Manager) and
`passes()` describe by their keys — an optional condition predicate key and
an optional do-while predicate key. -/
structure PassSet where
  passes : List BasePass
  flowControllers : List String

/-- The pass manager (`PassManager`): its schedule of pass sets
(`_pass_sets`) and the loop ceiling (`max_iteration`). -/
structure PassManager where
  passSets : List PassSet
  maxIteration : Nat

/-- Construction (`PassManager.__init__`): no pass sets scheduled unless an
initial pass set is supplied; `max_iteration` defaults to 1000. -/
def PassManager.init (passes : Option (List BasePass))
    (maxIteration : Nat := 1000) : PassManager :=
  { passSets :=
      match passes with
      | none => []
      | some ps => [{ passes := ps, flowControllers := [] }],
    maxIteration := maxIteration }

/-- Composition of two managers (`PassManager.__add__`, lines 147–151): a
new manager with `max_iteration` from the left operand and
`_pass_sets = self._pass_sets + other._pass_sets`. -/
def PassManager.add (pm other : PassManager) : PassManager :=
  { passSets := pm.passSets ++ other.passSets, maxIteration := pm.maxIteration }

/-- Modelled from the spec: the bounded repeat-while combinator of the
`DoWhile` flow controller (its implementation, `runningpassmanager.py`, is
not under `src/`).  Per §4.1/§3: run the wrapped sequence, re-evaluate the
predicate against the possibly mutated property set, and repeat until the
predicate is false or `max_iterations` repetitions have been performed;
reaching the ceiling is not an error — the loop simply stops.  Returns the
final state together with the number of repetitions performed. -/
def doWhileRun (body : Circuit × PropertySet → Circuit × PropertySet)
    (pred : PropertySet → Bool) :
    Nat → Circuit × PropertySet → (Circuit × PropertySet) × Nat
  | 0, s => (s, 0)
  | n + 1, s =>
      let s2 := body s
      if pred s2.2 then
        let r := doWhileRun body pred n s2
        (r.1, r.2 + 1)
      else (s2, 1)

/-- Sequential execution of the passes of one pass set. -/
def runPasses (passes : List BasePass) (s : Circuit × PropertySet) :
    Circuit × PropertySet :=
  passes.foldl (fun st p => p.run st.1 st.2) s

/-- Modelled from the spec: execution of one pass set by the running pass
manager (§4.1; `runningpassmanager.py` is not under `src/`): a set carrying
a `do_while` predicate repeats under `doWhileRun` up to the manager's
iteration ceiling; a set carrying only a `condition` predicate runs once or
is skipped; otherwise the sequence runs exactly once.  Predicates are keyed
by a property-set name holding a non-zero value. -/
def runPassSet (maxIteration : Nat) (ps : PassSet)
    (s : Circuit × PropertySet) : Circuit × PropertySet :=
  if ps.flowControllers.contains "do_while" then
    (doWhileRun (runPasses ps.passes)
      (fun props => (props.lookup "do_while_key").getD 0 != 0) maxIteration s).1
  else if ps.flowControllers.contains "condition" then
    if (s.2.lookup "condition_key").getD 0 != 0 then runPasses ps.passes s else s
  else runPasses ps.passes s

/-- Modelled from the spec: `RunningPassManager.run` via
`PassManager._run_single_circuit` (lines 265–282) — a freshly created
running pass manager executes every pass set in append order against a
fresh, empty property set, and the output program carries `output_name`
when one is given, the input's name otherwise. -/
def runSingleCircuit (pm : PassManager) (c : Circuit)
    (outputName : Option String) (callback : Option Unit) : Circuit :=
  let result := (pm.passSets.foldl (fun st ps => runPassSet pm.maxIteration ps st)
    (c, ([] : PropertySet))).1
  { result with name := outputName.getD result.name }

/-- `PassManager.run` (lines 181–228) for a single program: with no pass
sets scheduled and neither `output_name` nor `callback` supplied, the input
is returned as is (line 222–223); otherwise the program is fed through a
freshly created running pass manager. -/
def PassManager.run (pm : PassManager) (c : Circuit)
    (outputName : Option String := none) (callback : Option Unit := none) :
    Circuit :=
  if pm.passSets.isEmpty && outputName.isNone && callback.isNone then c
  else runSingleCircuit pm c outputName callback

/-! ### Staged pass manager (`passmanager.py` lines 325–505) -/

/-- The staged pass manager (`StagedPassManager`): the declared stage names,
the attribute store holding the per-stage `pre_`/stage/`post_` slots
(Python instance attributes; a slot reads as `None` when the attribute is
absent, matching `getattr(self, name, None)`), and the inherited flattened
`_pass_sets` of the underlying linear pass manager. -/
structure StagedPassManager where
  stages : List String
  attrs : List (String × Option PassManager)
  passSets : List PassSet
  maxIteration : Nat

/-- Character-list prefix test (`str.startswith(pre)`; stated over the
string's character data so that it evaluates definitionally). -/
def strStartsWith (s pre : String) : Bool :=
  decide (s.data.take pre.data.length = pre.data)

/-- Character-list drop (`attr[n:]`). -/
def strDrop (s : String) (n : Nat) : String := String.mk (s.data.drop n)

/-- Attribute-store write: replace the first binding of the name, or append
a new binding. -/
def setStore (l : List (String × Option PassManager)) (k : String)
    (v : Option PassManager) : List (String × Option PassManager) :=
  match l with
  | [] => [(k, v)]
  | (k1, v1) :: rest =>
      if k1 = k then (k1, v) :: rest else (k1, v1) :: setStore rest k v

/-- Slot read, `getattr(self, name, None)`. -/
def StagedPassManager.getSlot (spm : StagedPassManager) (name : String) :
    Option PassManager :=
  match spm.attrs.lookup name with
  | none => none
  | some v => v

/-- The pass sets contributed by one slot (`None` contributes nothing). -/
def StagedPassManager.slotSets (spm : StagedPassManager) (name : String) :
    List PassSet :=
  match spm.getSlot name with
  | none => []
  | some pm => pm.passSets

/-- The flattening of the current slots in stage order, pre → stage → post
per stage (`_update_passmanager`, lines 429–443). -/
def flattenStages (spm : StagedPassManager) : List PassSet :=
  spm.stages.foldr
    (fun stage acc =>
      spm.slotSets ("pre_" ++ stage) ++ spm.slotSets stage ++
        spm.slotSets ("post_" ++ stage) ++ acc) []

/-- Re-flattening into the underlying linear pass manager
(`_update_passmanager`). -/
def updatePassmanager (spm : StagedPassManager) : StagedPassManager :=
  { spm with passSets := flattenStages spm }

/-- Attribute assignment, `StagedPassManager.__setattr__` (lines 445–452):
the attribute is stored, then `_update_passmanager()` runs only when the
name is a declared stage, or starts with `pre_` (resp. `post_`) with a
remainder that is NOT in the declared stage list — the source's condition
is written with `not in`. -/
def StagedPassManager.setattr (spm : StagedPassManager) (attr : String)
    (v : Option PassManager) : StagedPassManager :=
  let spm2 := { spm with attrs := setStore spm.attrs attr v }
  if attr ∈ spm2.stages ∨
      (strStartsWith attr "pre_" ∧ strDrop attr 4 ∉ spm2.stages) ∨
      (strStartsWith attr "post_" ∧ strDrop attr 5 ∉ spm2.stages) then
    updatePassmanager spm2
  else spm2

/-- Error raised by every pass-level mutator of a staged manager. -/
inductive StagedError where
  | notImplemented : StagedError
deriving DecidableEq, Repr

/-- `StagedPassManager.append` (lines 454–460): always raises. -/
def StagedPassManager.append (spm : StagedPassManager)
    (passes : List BasePass) (maxIteration : Option Nat)
    (flowControllerConditions : List String) :
    Except StagedError StagedPassManager :=
  Except.error StagedError.notImplemented

/-- `StagedPassManager.replace` (lines 462–469): always raises. -/
def StagedPassManager.replace (spm : StagedPassManager) (index : Nat)
    (passes : List BasePass) (maxIteration : Option Nat)
    (flowControllerConditions : List String) :
    Except StagedError StagedPassManager :=
  Except.error StagedError.notImplemented

/-- `StagedPassManager.remove` (lines 472–473): always raises. -/
def StagedPassManager.remove (spm : StagedPassManager) (index : Nat) :
    Except StagedError StagedPassManager :=
  Except.error StagedError.notImplemented

/-- `StagedPassManager.__setitem__` (lines 483–484): always raises. -/
def StagedPassManager.setItem (spm : StagedPassManager) (index : Nat)
    (item : List BasePass) : Except StagedError StagedPassManager :=
  Except.error StagedError.notImplemented

/-- `StagedPassManager.__add__` (lines 486–487): always raises. -/
def StagedPassManager.addPm (spm : StagedPassManager) (other : PassManager) :
    Except StagedError StagedPassManager :=
  Except.error StagedError.notImplemented

/-- A one-set pass manager used as a stage slot value. -/
def stagePm : PassManager :=
  { passSets := [{ passes := [{ name := "p", run := fun c props => (c, props) }],
                   flowControllers := [] }],
    maxIteration := 1000 }

/-- A staged pass manager with the single declared stage "init" and all
three slots unset, as `__init__` leaves it. -/
def stagedInit : StagedPassManager :=
  { stages := ["init"],
    attrs := [("pre_init", none), ("init", none), ("post_init", none)],
    passSets := [], maxIteration := 1000 }

/-! ### Derived notions used to state and prove the scheduling properties -/

/-- The same scheduler state with a different emitted list (the maps are
untouched); used to relate a re-run of a scheduler on its own output to the
original run. -/
def SchedState.withEmitted (st : SchedState) (e : List TimedNode) : SchedState :=
  { st with emitted := e }

/-- The resolved numeric duration of a node (0 when it does not resolve;
only used on nodes that do resolve). -/
def rdur (cal : CalTable) (n : Node) : Nat :=
  match resolveDuration cal n with
  | Duration.dt d => d
  | _ => 0

/-- Two nodes share an A-track. -/
def shares (m n : Node) : Prop := ∃ q, q ∈ m.qargs ∧ q ∈ n.qargs

/-- A dependency chain through the node sequence: consecutive elements share
an A-track and every element occupies at least one A-track. -/
def GoodChain (c : List Node) : Prop :=
  c.Chain' shares ∧ ∀ x ∈ c, x.qargs ≠ []

/-- The chain ends on A-track `q`: its last element occupies `q`. -/
def EndsOn (c : List Node) (q : Nat) : Prop :=
  ∃ m, c.getLast? = some m ∧ q ∈ m.qargs

/-- Total resolved duration of a chain. -/
def csum (cal : CalTable) (c : List Node) : Nat := (c.map (rdur cal)).sum

/-- The available-at table computed by the scheduling loop on a graph with
no B-track dependencies: the pure fold of the A-track timestamp updates (on
such nodes the start time is the maximum of the node's A-track timestamps
and neither `readable` nor `writeable` influences or is influenced by the
loop). -/
def qtaFold (cal : CalTable) (f : Nat → Nat) : List Node → (Nat → Nat)
  | [] => f
  | n :: rest =>
      qtaFold cal
        (fun q => if q ∈ n.qargs then natMax (n.qargs.map f) + rdur cal n else f q)
        rest

/-- Span of the pure fold from the all-zero table. -/
def spanF (cal : CalTable) (numQubits : Nat) (nodes : List Node) : Nat :=
  natMax ((List.range numQubits).map (qtaFold cal (fun _ => 0) nodes))

/-- The earliest-first result on the 3-node chain, written out. -/
def chainResult : SchedResult :=
  { dag := { chainDag with
               nodes := [nodeA, nodeB, nodeC],
               duration := some 40,
               unit := some "dt" },
    schedule := [{ node := nodeA, start := 0 }, { node := nodeB, start := 10 },
                 { node := nodeC, start := 30 }] }

/-- The latest-first result on the 3-node chain, written out (start times on
the reversed clock). -/
def chainResultAlap : SchedResult :=
  { dag := { chainDag with
               nodes := [nodeA, nodeB, nodeC],
               duration := some 40,
               unit := some "dt" },
    schedule := [{ node := nodeC, start := 0 }, { node := nodeB, start := 10 },
                 { node := nodeA, start := 30 }] }

/-! ### Theorems -/

/-- Claim C2: on the 3-node chain A→B→C on a single physical track with
resolved durations 10, 20, 10 in unit "dt" and no conditions, earliest-first
scheduling assigns start times 0, 10, 30, sets the output graph's total span
to 40 (`duration = 40`, `unit = "dt"`), and inserts no Delay operation on
the track: the output node sequence is exactly A, B, C. -/
theorem c2_chain_schedule :
    ASAPSchedule.run "dt" chainDag =
      Except.ok
        { dag := { chainDag with nodes := [nodeA, nodeB, nodeC],
                                 duration := some 40, unit := some "dt" },
          schedule := [{ node := nodeA, start := 0 }, { node := nodeB, start := 10 },
                       { node := nodeC, start := 30 }] } ∧
    (ASAPSchedule.run "dt" chainDag).map
        (fun r => r.dag.nodes.filter (fun n => n.op.name == "delay")) =
      Except.ok [] := by
  constructor
  · rfl
  · rfl

/-- Counterexample to claim C1 as stated: on `divergeDag` both passes
succeed, yet earliest-first computes span 22 while latest-first computes
span 12 — the conditioned gate is gated on the measurement's result under
the forward pass, while the mirror pass only forces the measurement's write
not to precede the conditioned gate's start, so the two spans differ. -/
theorem c1_span_counterexample :
    (ASAPSchedule.run "dt" divergeDag).map (fun r => r.dag.duration) =
      Except.ok (some 22) ∧
    (ALAPSchedule.run "dt" divergeDag).map (fun r => r.dag.duration) =
      Except.ok (some 12) ∧
    (ASAPSchedule.run "dt" divergeDag).map (fun r => r.dag.duration) ≠
      (ALAPSchedule.run "dt" divergeDag).map (fun r => r.dag.duration) := by
  refine ⟨rfl, rfl, ?_⟩
  intro h
  have h2 : Except.ok (ε := String) (some 22) = Except.ok (some 12) := by
    calc Except.ok (ε := String) (some 22)
        = (ASAPSchedule.run "dt" divergeDag).map (fun r => r.dag.duration) := by rfl
      _ = (ALAPSchedule.run "dt" divergeDag).map (fun r => r.dag.duration) := h
      _ = Except.ok (some 12) := by rfl
  simp at h2

/-- Claim C10: whenever a scheduling pass succeeds, the output graph carries
exactly the input graph's name, metadata and calibration table
(`new_dag.name = dag.name`, `new_dag.metadata = dag.metadata`,
`new_dag.calibrations = dag.calibrations`; `asap.py` lines 124–126 /
`alap.py` lines 122–124). -/
theorem c10_frame_fields :
    (∀ (u : String) (dag : DAGCircuit) (r : SchedResult),
       ASAPSchedule.run u dag = Except.ok r →
       r.dag.name = dag.name ∧ r.dag.metadata = dag.metadata ∧
         r.dag.calibrations = dag.calibrations) ∧
    (∀ (u : String) (dag : DAGCircuit) (r : SchedResult),
       ALAPSchedule.run u dag = Except.ok r →
       r.dag.name = dag.name ∧ r.dag.metadata = dag.metadata ∧
         r.dag.calibrations = dag.calibrations) := by
  constructor
  · intro u dag r h
    unfold ASAPSchedule.run at h
    split at h
    · split at h
      · exact absurd h (by simp)
      · rename_i em T heq
        cases h
        exact ⟨rfl, rfl, rfl⟩
    · exact absurd h (by simp)
  · intro u dag r h
    unfold ALAPSchedule.run at h
    split at h
    · split at h
      · exact absurd h (by simp)
      · rename_i em T heq
        cases h
        exact ⟨rfl, rfl, rfl⟩
    · exact absurd h (by simp)

/-- Witness: claim C10 applied to `frameDag` for both passes. -/
theorem c10_frame_fields_witness :
    ((ASAPSchedule.run "dt" frameDag).map (fun r => r.dag.name) = Except.ok "frame" ∧
     (ALAPSchedule.run "dt" frameDag).map (fun r => r.dag.name) = Except.ok "frame") := by
  constructor
  · have h : ∃ r, ASAPSchedule.run "dt" frameDag = Except.ok r := ⟨_, rfl⟩
    obtain ⟨r, hr⟩ := h
    have := (c10_frame_fields.1 "dt" frameDag r hr).1
    rw [hr, Except.map, this]
    rfl
  · have h : ∃ r, ALAPSchedule.run "dt" frameDag = Except.ok r := ⟨_, rfl⟩
    obtain ⟨r, hr⟩ := h
    have := (c10_frame_fields.2 "dt" frameDag r hr).1
    rw [hr, Except.map, this]
    rfl

/-- A step on a node that resolves succeeds. -/
theorem schedStep_ok (pol : SchedPolicy) (cal : CalTable) (st : SchedState)
    (n : Node) (h : resolutionError cal n = none) :
    ∃ st2, schedStep pol cal st n = Except.ok st2 := by
  unfold resolutionError at h
  unfold schedStep
  cases hres : resolveDuration cal n with
  | unset => rw [hres] at h; exact absurd h (by simp)
  | param e => rw [hres] at h; exact absurd h (by simp)
  | dt d => exact ⟨_, rfl⟩

/-- A step on a node that does not resolve fails with its resolution error. -/
theorem schedStep_error (pol : SchedPolicy) (cal : CalTable) (st : SchedState)
    (n : Node) (msg : String) (h : resolutionError cal n = some msg) :
    schedStep pol cal st n = Except.error msg := by
  unfold resolutionError at h
  unfold schedStep
  cases hres : resolveDuration cal n with
  | unset => rw [hres] at h; cases h; rfl
  | param e => rw [hres] at h; cases h; rfl
  | dt d => rw [hres] at h; cases h

/-- The scheduling loop fails with the resolution error of the first
unresolvable node, provided every node before it resolves. -/
theorem schedNodes_error (pol : SchedPolicy) (cal : CalTable)
    (pre : List Node) (n : Node) (post : List Node) (msg : String)
    (hpre : ∀ m ∈ pre, resolutionError cal m = none)
    (hn : resolutionError cal n = some msg) :
    ∀ st, schedNodes pol cal st (pre ++ n :: post) = Except.error msg := by
  induction pre with
  | nil =>
      intro st
      show schedNodes pol cal st (n :: post) = Except.error msg
      unfold schedNodes
      rw [schedStep_error pol cal st n msg hn]
  | cons m rest ih =>
      intro st
      show schedNodes pol cal st (m :: (rest ++ n :: post)) = Except.error msg
      unfold schedNodes
      obtain ⟨st2, hst2⟩ := schedStep_ok pol cal st m (hpre m (by simp))
      rw [hst2]
      exact ih (fun x hx => hpre x (by simp [hx])) st2

/-- Claim C3: if a node's duration is unset with no calibration entry, or is
an unresolved symbolic expression, and every node scheduled before it
resolves, then each pass aborts with a resolution error; the error message
(see `resolutionError`, `durationNotFoundMsg`, `parameterizedDurationMsg`)
names the offending operation and the indices of its A-tracks.  The
earliest-first pass walks the nodes forward, the latest-first pass walks
them in reverse, so "before" means the prefix for ASAP and the suffix for
ALAP. -/
theorem c3_resolution_error :
    (∀ (u : String) (dag : DAGCircuit) (pre : List Node) (n : Node)
       (post : List Node) (msg : String),
       physicalCheck dag = true →
       dag.nodes = pre ++ n :: post →
       (∀ m ∈ pre, resolutionError dag.calibrations m = none) →
       resolutionError dag.calibrations n = some msg →
       ASAPSchedule.run u dag = Except.error msg) ∧
    (∀ (u : String) (dag : DAGCircuit) (pre : List Node) (n : Node)
       (post : List Node) (msg : String),
       physicalCheck dag = true →
       dag.nodes = pre ++ n :: post →
       (∀ m ∈ post, resolutionError dag.calibrations m = none) →
       resolutionError dag.calibrations n = some msg →
       ALAPSchedule.run u dag = Except.error msg) ∧
    (∀ (cal : CalTable) (n : Node) (msg : String),
       resolutionError cal n = some msg →
       msg = durationNotFoundMsg n ∨
         ∃ e, msg = parameterizedDurationMsg n e) := by
  refine ⟨?_, ?_, ?_⟩
  · intro u dag pre n post msg hphys hnodes hpre hn
    unfold ASAPSchedule.run
    rw [hphys]
    simp only [if_true]
    unfold coreRun
    rw [hnodes, schedNodes_error asapPolicy dag.calibrations pre n post msg hpre hn]
  · intro u dag pre n post msg hphys hnodes hpost hn
    unfold ALAPSchedule.run
    rw [hphys]
    simp only [if_true]
    unfold coreRun
    rw [hnodes]
    have hrev : (pre ++ n :: post).reverse = post.reverse ++ n :: pre.reverse := by
      simp
    rw [hrev, schedNodes_error alapPolicy dag.calibrations post.reverse n pre.reverse
      msg (fun m hm => hpost m (List.mem_reverse.mp hm)) hn]
  · intro cal n msg h
    unfold resolutionError at h
    cases hres : resolveDuration cal n with
    | unset => rw [hres] at h; cases h; exact Or.inl rfl
    | param e => rw [hres] at h; cases h; exact Or.inr ⟨e, rfl⟩
    | dt d => rw [hres] at h; cases h

/-- Witness for C3: on `badDag` both passes abort with the resolution error
naming the operation "h" and its A-track indices [1]. -/
theorem c3_resolution_error_witness :
    ASAPSchedule.run "dt" badDag =
      Except.error "Duration of h on qubits [1] is not found." ∧
    ALAPSchedule.run "dt" badDag =
      Except.error "Duration of h on qubits [1] is not found." := by
  constructor
  · exact c3_resolution_error.1 "dt" badDag [goodNode] badNode [] _
      (by decide) rfl (by decide) (by decide)
  · exact c3_resolution_error.2.1 "dt" badDag [goodNode] badNode [] _
      (by decide) rfl (by decide) (by decide)

/-- Claim C4: a `DoWhile`-controlled pass set whose predicate always
evaluates true performs exactly `max_iterations` repetitions and then stops
(without raising — `doWhileRun` is total and simply returns); and
`max_iterations` defaults to 1000 (`PassManager.__init__`, line 32). -/
theorem c4_do_while_ceiling :
    (∀ (body : Circuit × PropertySet → Circuit × PropertySet)
       (pred : PropertySet → Bool) (maxIteration : Nat)
       (s : Circuit × PropertySet),
       (∀ props, pred props = true) →
       (doWhileRun body pred maxIteration s).2 = maxIteration) ∧
    (PassManager.init none).maxIteration = 1000 := by
  constructor
  · intro body pred maxIteration
    induction maxIteration with
    | zero => intro s _; rfl
    | succ n ih =>
        intro s htrue
        unfold doWhileRun
        simp only [htrue (body s).2, if_true]
        simp [ih (body s) htrue]
  · rfl

/-- Witness for C4: an always-true predicate over three permitted
iterations performs exactly three repetitions. -/
theorem c4_do_while_ceiling_witness :
    (doWhileRun (fun s => s) (fun _ => true) 3
        ({ name := "c", body := 0 }, [])).2 = 3 ∧
    (PassManager.init none).maxIteration = 1000 :=
  ⟨c4_do_while_ceiling.1 (fun s => s) (fun _ => true) 3
      ({ name := "c", body := 0 }, []) (fun _ => rfl),
   c4_do_while_ceiling.2⟩

/-- Claim C5: running a pass manager with zero pass sets on a program (with
the default `output_name = None`, `callback = None`) returns the input
unchanged (`run`, lines 222–223). -/
theorem c5_run_identity (pm : PassManager) (c : Circuit)
    (h : pm.passSets = []) : pm.run c = c := by
  unfold PassManager.run
  rw [h]
  rfl

/-- Witness for C5: the empty manager returns a concrete program as is. -/
theorem c5_run_identity_witness :
    (PassManager.init none).run { name := "w", body := 7 } =
      { name := "w", body := 7 } :=
  c5_run_identity (PassManager.init none) { name := "w", body := 7 } rfl

/-- Claim C8: adding two pass managers concatenates their pass-set lists in
order — the result's sets are exactly the first manager's followed by the
second's, each with its passes and flow-controller parameters untouched (no
deduplication, no reordering), and the ceiling comes from the left operand
(`__add__`, lines 147–151). -/
theorem c8_add_concat (pm other : PassManager) :
    (pm.add other).passSets = pm.passSets ++ other.passSets ∧
    (pm.add other).maxIteration = pm.maxIteration :=
  ⟨rfl, rfl⟩

/-- Claim C9: with zero pass sets, `run` returns the input object itself
only on the default arguments; as soon as `output_name` or a callback is
supplied the input is fed through a freshly created running pass manager
(`runSingleCircuit`) even though no passes execute (`run`, lines 222–228). -/
theorem c9_run_dispatch (pm : PassManager) (c : Circuit)
    (outputName : Option String) (callback : Option Unit)
    (hempty : pm.passSets = [])
    (h : outputName ≠ none ∨ callback ≠ none) :
    pm.run c outputName callback = runSingleCircuit pm c outputName callback := by
  unfold PassManager.run
  have : (pm.passSets.isEmpty && outputName.isNone && callback.isNone) = false := by
    rcases h with h | h
    · cases outputName with
      | none => exact absurd rfl h
      | some v => simp
    · cases callback with
      | none => exact absurd rfl h
      | some v => simp
  rw [this]
  rfl

/-- Witness for C9: the empty manager with an output name still routes the
program through the running pass manager, which renames it. -/
theorem c9_run_dispatch_witness :
    (PassManager.init none).run { name := "w", body := 7 } (some "out") none =
      runSingleCircuit (PassManager.init none) { name := "w", body := 7 }
        (some "out") none ∧
    (PassManager.init none).run { name := "w", body := 7 } (some "out") none =
      { name := "out", body := 7 } :=
  ⟨c9_run_dispatch (PassManager.init none) { name := "w", body := 7 }
      (some "out") none rfl (Or.inl (by simp)),
   by rfl⟩

/-- Claim C7: every individual pass-level mutation operation on a staged
pass manager — `append`, `replace`, `remove`, indexed assignment and
addition — raises for all arguments; only whole-stage slot replacement
(`setattr`) is permitted. -/
theorem c7_staged_mutators_raise :
    ∀ (spm : StagedPassManager) (passes : List BasePass)
      (index : Nat) (maxIteration : Option Nat) (conds : List String)
      (other : PassManager),
      spm.append passes maxIteration conds = Except.error StagedError.notImplemented ∧
      spm.replace index passes maxIteration conds = Except.error StagedError.notImplemented ∧
      spm.remove index = Except.error StagedError.notImplemented ∧
      spm.setItem index passes = Except.error StagedError.notImplemented ∧
      spm.addPm other = Except.error StagedError.notImplemented :=
  fun _ _ _ _ _ _ => ⟨rfl, rfl, rfl, rfl, rfl⟩

/-- Claim C6 fails on the code: assigning the `pre_init` slot of a staged
manager whose declared stages are `["init"]` does not re-flatten — the
guard of `__setattr__` (lines 447–451) tests `attr[4:] not in self.stages`,
so it fires only for *undeclared* pre/post names — leaving the underlying
`_pass_sets` empty while the flattening of the current slots is the
assigned manager's pass set; assigning the bare stage name does
re-flatten.  (The stale view is later repaired only because `run`,
`passes`, `__len__` and `_create_running_passmanager` call
`_update_passmanager()` themselves.) -/
theorem c6_setattr_stale :
    (stagedInit.setattr "pre_init" (some stagePm)).passSets = [] ∧
    flattenStages (stagedInit.setattr "pre_init" (some stagePm)) =
      stagePm.passSets ∧
    stagePm.passSets ≠ [] ∧
    (stagedInit.setattr "init" (some stagePm)).passSets = stagePm.passSets := by
  refine ⟨rfl, rfl, ?_, rfl⟩
  simp [stagePm]

/-- Membership bound for `natMax`. -/
theorem le_natMax_of_mem {a : Nat} {l : List Nat} (h : a ∈ l) : a ≤ natMax l := by
  induction l with
  | nil => cases h
  | cons b rest ih =>
      rcases List.mem_cons.mp h with h | h
      · subst h; exact Nat.le_max_left _ _
      · exact Nat.le_trans (ih h) (Nat.le_max_right _ _)

/-- Upper bound for `natMax`. -/
theorem natMax_le {l : List Nat} {b : Nat} (h : ∀ a ∈ l, a ≤ b) : natMax l ≤ b := by
  induction l with
  | nil => exact Nat.zero_le b
  | cons a rest ih =>
      exact Nat.max_le.mpr ⟨h a (by simp), ih (fun x hx => h x (by simp [hx]))⟩

/-- `natMax` distributes over append. -/
theorem natMax_append (l1 l2 : List Nat) :
    natMax (l1 ++ l2) = max (natMax l1) (natMax l2) := by
  induction l1 with
  | nil => simp [natMax]
  | cons a rest ih =>
      show max a (natMax (rest ++ l2)) = max (max a (natMax rest)) (natMax l2)
      rw [ih, Nat.max_assoc]

/-- The maximum of a nonempty list is attained. -/
theorem natMax_mem {l : List Nat} (h : l ≠ []) : ∃ a ∈ l, natMax l = a := by
  induction l with
  | nil => exact absurd rfl h
  | cons a rest ih =>
      cases hr : rest with
      | nil => exact ⟨a, by simp, by simp [natMax]⟩
      | cons b rest2 =>
          obtain ⟨m, hm, hmax⟩ := ih (by simp [hr])
          rw [hr] at hm hmax
          by_cases hab : a ≤ natMax (b :: rest2)
          · refine ⟨m, by simp [hr, hm], ?_⟩
            show max a (natMax (b :: rest2)) = m
            rw [Nat.max_eq_right hab, hmax]
          · refine ⟨a, by simp, ?_⟩
            show max a (natMax (b :: rest2)) = a
            rw [Nat.max_eq_left (Nat.le_of_not_le hab)]

/-- A nonempty list of equal values has that value as maximum. -/
theorem natMax_all_eq {l : List Nat} {s : Nat} (hne : l ≠ [])
    (h : ∀ a ∈ l, a = s) : natMax l = s := by
  obtain ⟨a, ha, hmax⟩ := natMax_mem hne
  rw [hmax, h a ha]

/-- Extensionality for scheduler states. -/
theorem SchedState.ext2 {a b : SchedState}
    (h1 : ∀ q, a.qta q = b.qta q) (h2 : ∀ c, a.readable c = b.readable c)
    (h3 : ∀ c, a.writeable c = b.writeable c) (h4 : a.emitted = b.emitted) :
    a = b := by
  cases a; cases b
  simp only [SchedState.mk.injEq]
  exact ⟨funext h1, funext h2, funext h3, h4⟩

/-- Projections of `updState`. -/
theorem updState_qta (pol : SchedPolicy) (st : SchedState) (n : Node)
    (s t q : Nat) :
    (updState pol st n s t).qta q = if q ∈ n.qargs then t else st.qta q := rfl

/-- Projection of `updState` on `readable`. -/
theorem updState_readable (pol : SchedPolicy) (st : SchedState) (n : Node)
    (s t c : Nat) :
    (updState pol st n s t).readable c =
      if n.op.isMeasure && decide (c ∈ n.cargs) then pol.arrival s t
      else if c ∈ n.cargs ++ n.op.conditionBits then t
      else st.readable c := rfl

/-- Projection of `updState` on `writeable`. -/
theorem updState_writeable (pol : SchedPolicy) (st : SchedState) (n : Node)
    (s t c : Nat) :
    (updState pol st n s t).writeable c =
      if n.op.isMeasure && decide (c ∈ n.cargs) then pol.arrival s t
      else st.writeable c := rfl

/-- Projection of `updState` on `emitted`. -/
theorem updState_emitted (pol : SchedPolicy) (st : SchedState) (n : Node)
    (s t : Nat) : (updState pol st n s t).emitted = st.emitted := rfl

/-- The loop distributes over list append. -/
theorem schedNodes_append_ok (pol : SchedPolicy) (cal : CalTable)
    (l1 l2 : List Node) :
    ∀ st st2, schedNodes pol cal st l1 = Except.ok st2 →
      schedNodes pol cal st (l1 ++ l2) = schedNodes pol cal st2 l2 := by
  induction l1 with
  | nil =>
      intro st st2 h
      cases h
      rfl
  | cons n rest ih =>
      intro st st2 h
      simp only [schedNodes] at h
      cases hs : schedStep pol cal st n with
      | error e =>
          rw [hs] at h
          exact absurd h (by simp)
      | ok stm =>
          rw [hs] at h
          show schedNodes pol cal st (n :: (rest ++ l2)) = _
          simp only [schedNodes]
          rw [hs]
          exact ih stm st2 h

/-- Successful-step inversion: the resolved duration and the exact shape of
the produced state. -/
theorem schedStep_ok_inv (pol : SchedPolicy) (cal : CalTable)
    (st : SchedState) (n : Node) (st1 : SchedState)
    (h : schedStep pol cal st n = Except.ok st1) :
    ∃ d, resolveDuration cal n = Duration.dt d ∧
      st1 = updState pol
        { st with emitted := st.emitted ++
            delaysFor st n.qargs (nodeStart pol st n d) ++
            [{ node := { n with op := { n.op with duration := Duration.dt d } },
               start := nodeStart pol st n d }] }
        n (nodeStart pol st n d) (nodeStart pol st n d + d) := by
  unfold schedStep at h
  cases hres : resolveDuration cal n with
  | unset => rw [hres] at h; cases h
  | param e => rw [hres] at h; cases h
  | dt d =>
      rw [hres] at h
      simp only [Except.ok.injEq] at h
      exact ⟨d, rfl, h.symm⟩

/-- Re-scheduling an idle operation from the timestamp it was recorded at:
it starts exactly at its track's available-at time, inserts no further
padding, advances that track by its duration, and leaves the B-track
timestamps untouched. -/
theorem schedStep_delay (pol : SchedPolicy) (cal : CalTable)
    (stR : SchedState) (g q : Nat) :
    schedStep pol cal stR (delayNode g q) =
      Except.ok { stR with
        qta := fun x => if x ∈ [q] then stR.qta q + g else stR.qta x,
        emitted := stR.emitted ++ [{ node := delayNode g q, start := stR.qta q }] } := by
  have hstart : nodeStart pol stR (delayNode g q) g = stR.qta q := by
    simp [nodeStart, delayNode, natMax]
  have hdels : delaysFor stR (delayNode g q).qargs (stR.qta q) = [] := by
    simp [delaysFor, delayNode]
  show (match resolveDuration cal (delayNode g q) with
        | Duration.unset => Except.error (durationNotFoundMsg (delayNode g q))
        | Duration.param e => Except.error (parameterizedDurationMsg (delayNode g q) e)
        | Duration.dt d => _) = _
  have hres : resolveDuration cal (delayNode g q) = Duration.dt g := rfl
  rw [hres]
  refine congrArg Except.ok (SchedState.ext2 ?_ ?_ ?_ ?_)
  · intro x
    simp only [updState_qta, hstart]
    rfl
  · intro c
    simp [updState_readable, delayNode]
  · intro c
    simp [updState_writeable, delayNode]
  · simp only [updState_emitted, hstart, hdels]
    simp [delayNode]

/-- Unfolding of the padding list on a track with a gap. -/
theorem delaysFor_cons_lt (st : SchedState) (q : Nat) (qs : List Nat)
    (start : Nat) (h : st.qta q < start) :
    delaysFor st (q :: qs) start =
      { node := delayNode (start - st.qta q) q, start := st.qta q } ::
        delaysFor st qs start := by
  simp [delaysFor, List.filterMap_cons, h]

/-- Unfolding of the padding list on a track with no gap. -/
theorem delaysFor_cons_ge (st : SchedState) (q : Nat) (qs : List Nat)
    (start : Nat) (h : ¬ st.qta q < start) :
    delaysFor st (q :: qs) start = delaysFor st qs start := by
  simp [delaysFor, List.filterMap_cons, h]

/-- Re-scheduling a block of idle padding recorded against base state `stB`
from any state agreeing with `stB` on the padded tracks: every idle
operation re-starts at its recorded time, the block is re-emitted verbatim,
the padded tracks all advance exactly to `start`, and nothing else changes. -/
theorem schedNodes_delays (pol : SchedPolicy) (cal : CalTable)
    (stB : SchedState) (start : Nat) :
    ∀ (qs : List Nat) (stR : SchedState), qs.Nodup →
      (∀ q ∈ qs, stR.qta q = stB.qta q) →
      (∀ q ∈ qs, stB.qta q ≤ start) →
      schedNodes pol cal stR ((delaysFor stB qs start).map TimedNode.node) =
        Except.ok
          { stR with
            qta := fun q => if q ∈ qs then start else stR.qta q,
            emitted := stR.emitted ++ delaysFor stB qs start } := by
  intro qs
  induction qs with
  | nil =>
      intro stR _ _ _
      show Except.ok stR = _
      refine congrArg Except.ok (SchedState.ext2 ?_ (fun _ => rfl) (fun _ => rfl) ?_)
      · intro x
        simp [delaysFor]
      · simp [delaysFor]
  | cons q qs ih =>
      intro stR hnd hagree hle
      have hqnotin : q ∉ qs := (List.nodup_cons.mp hnd).1
      have hndr : qs.Nodup := (List.nodup_cons.mp hnd).2
      by_cases hlt : stB.qta q < start
      · rw [delaysFor_cons_lt stB q qs start hlt]
        simp only [List.map_cons, schedNodes]
        have hq : stR.qta q = stB.qta q := hagree q (by simp)
        rw [schedStep_delay pol cal stR (start - stB.qta q) q]
        have hih := ih
          { stR with
            qta := fun x => if x ∈ [q] then stR.qta q + (start - stB.qta q) else stR.qta x,
            emitted := stR.emitted ++ [{ node := delayNode (start - stB.qta q) q, start := stR.qta q }] }
          hndr
          (fun x hx => by
            have hxq : x ≠ q := fun he => hqnotin (he ▸ hx)
            simp [hxq]
            exact hagree x (by simp [hx]))
          (fun x hx => hle x (by simp [hx]))
        refine Eq.trans hih ?_
        refine congrArg Except.ok (SchedState.ext2 ?_ (fun _ => rfl) (fun _ => rfl) ?_)
        · intro x
          by_cases hxqs : x ∈ qs
          · simp [hxqs]
          · by_cases hxq : x = q
            · subst hxq
              simp [hxqs, hq, Nat.add_sub_cancel' (Nat.le_of_lt hlt)]
            · simp [hxqs, hxq]
        · show (stR.emitted ++ [_]) ++ delaysFor stB qs start = stR.emitted ++ (_ :: delaysFor stB qs start)
          rw [hq]
          simp
      · rw [delaysFor_cons_ge stB q qs start hlt]
        refine Eq.trans (ih stR hndr (fun x hx => hagree x (by simp [hx]))
          (fun x hx => hle x (by simp [hx]))) ?_
        have heq : stB.qta q = start := Nat.le_antisymm (hle q (by simp)) (Nat.le_of_not_lt hlt)
        refine congrArg Except.ok (SchedState.ext2 ?_ (fun _ => rfl) (fun _ => rfl) rfl)
        · intro x
          by_cases hxqs : x ∈ qs
          · simp [hxqs]
          · by_cases hxq : x = q
            · subst hxq
              simp [hxqs, hagree x (by simp), heq]
            · simp [hxqs, hxq]

/-- No padding is produced when no track is behind. -/
theorem delaysFor_eq_nil (st : SchedState) (qs : List Nat) (s : Nat)
    (h : ∀ q ∈ qs, ¬ st.qta q < s) : delaysFor st qs s = [] := by
  unfold delaysFor
  induction qs with
  | nil => rfl
  | cons q rest ih =>
      rw [List.filterMap_cons]
      have hq := h q (by simp)
      simp only [hq, if_false]
      exact ih (fun x hx => h x (by simp [hx]))

/-- Replacing the A-track terms of a start-time maximum by the maximum
itself does not change it. -/
theorem natMax_pad {A2 A B : List Nat}
    (hA : ∀ a ∈ A2, a = natMax (A ++ B)) (hemp : A2 = [] → A = []) :
    natMax (A2 ++ B) = natMax (A ++ B) := by
  by_cases h2 : A2 = []
  · rw [h2, hemp h2]
  · rw [natMax_append]
    have h1 : natMax A2 = natMax (A ++ B) := natMax_all_eq h2 hA
    have hB : natMax B ≤ natMax (A ++ B) := by
      rw [natMax_append]
      exact Nat.le_max_right _ _
    rw [h1]
    exact Nat.max_eq_left hB

/-- A record-update of the operation's duration by its already-resolved
value is the identity. -/
theorem op_duration_update_self (m : Node) (d : Nat)
    (hm : m.op.duration = Duration.dt d) :
    ({ m with op := { m.op with duration := Duration.dt d } } : Node) = m := by
  cases m with
  | mk op qargs cargs =>
      cases op
      cases hm
      rfl

/-- A step on a node whose own duration is already resolved, in closed
form. -/
theorem schedStep_resolved (pol : SchedPolicy) (cal : CalTable)
    (S : SchedState) (m : Node) (d : Nat)
    (hm : m.op.duration = Duration.dt d) :
    schedStep pol cal S m = Except.ok (updState pol
      { S with emitted := S.emitted ++ delaysFor S m.qargs (nodeStart pol S m d) ++
          [{ node := m, start := nodeStart pol S m d }] }
      m (nodeStart pol S m d) (nodeStart pol S m d + d)) := by
  have hres : resolveDuration cal m = Duration.dt d := by
    unfold resolveDuration
    rw [hm]
  unfold schedStep
  rw [hres]
  exact congrArg (fun x => Except.ok (updState pol
    { S with emitted := S.emitted ++ delaysFor S m.qargs (nodeStart pol S m d) ++
        [{ node := x, start := nodeStart pol S m d }] }
    m (nodeStart pol S m d) (nodeStart pol S m d + d)))
    (op_duration_update_self m d hm)

/-- The start time only depends on the A-track timestamps of the node's
tracks, the B-track maps, and the node's arguments and kind. -/
theorem nodeStart_padded (pol : SchedPolicy) (st STD : SchedState)
    (n n2 : Node) (d : Nat)
    (hq : n2.qargs = n.qargs) (hc : n2.cargs = n.cargs)
    (hcb : n2.op.conditionBits = n.op.conditionBits)
    (hM : n2.op.isMeasure = n.op.isMeasure)
    (hr : ∀ c, STD.readable c = st.readable c)
    (hw : ∀ c, STD.writeable c = st.writeable c)
    (hqta : ∀ x ∈ n.qargs, STD.qta x = nodeStart pol st n d) :
    nodeStart pol STD n2 d = nodeStart pol st n d := by
  unfold nodeStart
  rw [hq, hc, hcb, hM]
  have hBeq : (n.cargs ++ n.op.conditionBits).map
        (fun c => clbitAvail STD n.op.isMeasure c - pol.deltaOf n.op.isMeasure d) =
      (n.cargs ++ n.op.conditionBits).map
        (fun c => clbitAvail st n.op.isMeasure c - pol.deltaOf n.op.isMeasure d) := by
    refine List.map_congr_left ?_
    intro c _
    unfold clbitAvail
    cases n.op.isMeasure <;> simp [hr c, hw c]
  rw [hBeq]
  refine natMax_pad ?_ ?_
  · intro a ha
    obtain ⟨x, hx, hax⟩ := List.mem_map.mp ha
    rw [← hax, hqta x hx]
    rfl
  · intro h2
    simp only [List.map_eq_nil_iff] at h2
    simp [h2]

/-- Congruence for the timestamp update: only the maps, the emitted list,
and the node's arguments and kind matter. -/
theorem updState_congr (pol : SchedPolicy) (a b : SchedState) (n n2 : Node)
    (s t : Nat)
    (hq : n2.qargs = n.qargs) (hc : n2.cargs = n.cargs)
    (hcb : n2.op.conditionBits = n.op.conditionBits)
    (hM : n2.op.isMeasure = n.op.isMeasure)
    (hqta : ∀ x, x ∉ n.qargs → a.qta x = b.qta x)
    (hr : ∀ c, a.readable c = b.readable c)
    (hw : ∀ c, a.writeable c = b.writeable c)
    (hem : a.emitted = b.emitted) :
    updState pol a n2 s t = updState pol b n s t := by
  refine SchedState.ext2 ?_ ?_ ?_ hem
  · intro x
    rw [updState_qta, updState_qta, hq]
    by_cases hx : x ∈ n.qargs
    · simp [hx]
    · simp [hx, hqta x hx]
  · intro c
    rw [updState_readable, updState_readable, hc, hcb, hM, hr c]
  · intro c
    rw [updState_writeable, updState_writeable, hc, hM, hw c]

/-- Moving the emitted list in or out of the update commutes. -/
theorem updState_withEmitted (pol : SchedPolicy) (B : SchedState) (n : Node)
    (s t : Nat) (e : List TimedNode) :
    (updState pol B n s t).withEmitted e = updState pol (B.withEmitted e) n s t := rfl

/-- Re-scheduling the emitted segment of one node (its idle padding followed
by the node itself) from a state with the same timestamp maps reproduces the
segment verbatim, with the same start times, and advances the maps exactly
as the original step did. -/
theorem schedNodes_segment (pol : SchedPolicy) (cal : CalTable)
    (st : SchedState) (n : Node) (st1 : SchedState)
    (hnd : n.qargs.Nodup) (h : schedStep pol cal st n = Except.ok st1)
    (E : List TimedNode) :
    ∃ seg, st1.emitted = st.emitted ++ seg ∧
      schedNodes pol cal (st.withEmitted E) (seg.map TimedNode.node) =
        Except.ok (st1.withEmitted (E ++ seg)) := by
  obtain ⟨d, hres, hst1⟩ := schedStep_ok_inv pol cal st n st1 h
  subst hst1
  refine ⟨delaysFor st n.qargs (nodeStart pol st n d) ++
      [{ node := { n with op := { n.op with duration := Duration.dt d } },
         start := nodeStart pol st n d }],
    by simp [updState_emitted], ?_⟩
  rw [List.map_append]
  have hle : ∀ q ∈ n.qargs, st.qta q ≤ nodeStart pol st n d := by
    intro q hq
    exact le_natMax_of_mem (List.mem_append_left _ (List.mem_map_of_mem st.qta hq))
  have hdelays := schedNodes_delays pol cal st (nodeStart pol st n d) n.qargs
    (st.withEmitted E) hnd (fun _ _ => rfl) hle
  rw [schedNodes_append_ok pol cal _ _ _ _ hdelays]
  have hqtaSTD : ∀ x,
      (({ st.withEmitted E with
          qta := fun q => if q ∈ n.qargs then nodeStart pol st n d
            else (st.withEmitted E).qta q,
          emitted := (st.withEmitted E).emitted ++
            delaysFor st n.qargs (nodeStart pol st n d) } : SchedState)).qta x =
        if x ∈ n.qargs then nodeStart pol st n d else st.qta x :=
    fun _ => rfl
  have hstart2 : nodeStart pol
      ({ st.withEmitted E with
          qta := fun q => if q ∈ n.qargs then nodeStart pol st n d
            else (st.withEmitted E).qta q,
          emitted := (st.withEmitted E).emitted ++
            delaysFor st n.qargs (nodeStart pol st n d) } : SchedState)
      { n with op := { n.op with duration := Duration.dt d } } d =
      nodeStart pol st n d := by
    refine nodeStart_padded pol st _ n _ d rfl rfl rfl rfl
      (fun _ => rfl) (fun _ => rfl) ?_
    intro x hx
    rw [hqtaSTD x, if_pos hx]
  simp only [List.map_cons, List.map_nil, schedNodes]
  rw [schedStep_resolved pol cal _
    { n with op := { n.op with duration := Duration.dt d } } d rfl]
  have hdels2 : delaysFor
      ({ st.withEmitted E with
          qta := fun q => if q ∈ n.qargs then nodeStart pol st n d
            else (st.withEmitted E).qta q,
          emitted := (st.withEmitted E).emitted ++
            delaysFor st n.qargs (nodeStart pol st n d) } : SchedState)
      ({ n with op := { n.op with duration := Duration.dt d } } : Node).qargs
      (nodeStart pol st n d) = [] := by
    refine delaysFor_eq_nil _ _ _ ?_
    intro q hq
    rw [hqtaSTD q, if_pos hq]
    exact Nat.lt_irrefl _
  show Except.ok _ = _
  rw [updState_withEmitted]
  refine congrArg Except.ok ?_
  rw [hstart2]
  refine updState_congr pol _ _ n _ _ _ rfl rfl rfl rfl ?_ (fun _ => rfl)
    (fun _ => rfl) ?_
  · intro x hx
    show (if x ∈ n.qargs then nodeStart pol st n d else st.qta x) = st.qta x
    rw [if_neg hx]
  · show ((st.withEmitted E).emitted ++ delaysFor st n.qargs (nodeStart pol st n d)) ++
        delaysFor
          ({ st.withEmitted E with
              qta := fun q => if q ∈ n.qargs then nodeStart pol st n d
                else (st.withEmitted E).qta q,
              emitted := (st.withEmitted E).emitted ++
                delaysFor st n.qargs (nodeStart pol st n d) } : SchedState)
          ({ n with op := { n.op with duration := Duration.dt d } } : Node).qargs
          (nodeStart pol st n d) ++
        [{ node := { n with op := { n.op with duration := Duration.dt d } },
           start := nodeStart pol st n d }] =
      (st.withEmitted (E ++ (delaysFor st n.qargs (nodeStart pol st n d) ++
        [{ node := { n with op := { n.op with duration := Duration.dt d } },
           start := nodeStart pol st n d }]))).emitted
    rw [hdels2]
    simp [SchedState.withEmitted]

/-- The loop only appends to the emitted list. -/
theorem schedNodes_emitted_ext (pol : SchedPolicy) (cal : CalTable) :
    ∀ (L : List Node) (st stF : SchedState),
      schedNodes pol cal st L = Except.ok stF →
      ∃ delta, stF.emitted = st.emitted ++ delta := by
  intro L
  induction L with
  | nil =>
      intro st stF h
      cases h
      exact ⟨[], by simp⟩
  | cons n rest ih =>
      intro st stF h
      simp only [schedNodes] at h
      cases hs : schedStep pol cal st n with
      | error e => rw [hs] at h; exact absurd h (by simp)
      | ok st1 =>
          rw [hs] at h
          obtain ⟨d2, hd2⟩ := ih st1 stF h
          obtain ⟨d, hres, hst1⟩ := schedStep_ok_inv pol cal st n st1 hs
          refine ⟨(delaysFor st n.qargs (nodeStart pol st n d) ++
            [{ node := { n with op := { n.op with duration := Duration.dt d } },
               start := nodeStart pol st n d }]) ++ d2, ?_⟩
          rw [hd2, hst1, updState_emitted]
          simp

/-- Re-playing the full emitted trace of a successful loop run from a state
with the same timestamp maps succeeds, reproduces the trace verbatim (same
operations, same start times, no further padding) and ends in the same
timestamp maps. -/
theorem schedNodes_replay (pol : SchedPolicy) (cal : CalTable) :
    ∀ (L : List Node) (st stF : SchedState) (delta : List TimedNode),
      (∀ n ∈ L, n.qargs.Nodup) →
      schedNodes pol cal st L = Except.ok stF →
      stF.emitted = st.emitted ++ delta →
      ∀ E, schedNodes pol cal (st.withEmitted E) (delta.map TimedNode.node) =
        Except.ok (stF.withEmitted (E ++ delta)) := by
  intro L
  induction L with
  | nil =>
      intro st stF delta _ h hem E
      cases h
      have hd : delta = [] := by
        have h2 := hem.symm
        rw [List.append_right_eq_self] at h2
        exact h2
      subst hd
      simp [schedNodes]
  | cons n rest ih =>
      intro st stF delta hnd h hem E
      simp only [schedNodes] at h
      cases hs : schedStep pol cal st n with
      | error e => rw [hs] at h; exact absurd h (by simp)
      | ok st1 =>
          rw [hs] at h
          obtain ⟨seg, hseg, hrun⟩ := schedNodes_segment pol cal st n st1
            (hnd n (by simp)) hs E
          obtain ⟨d2, hd2⟩ := schedNodes_emitted_ext pol cal rest st1 stF h
          have hdelta : delta = seg ++ d2 := by
            have h3 : st.emitted ++ delta = st.emitted ++ (seg ++ d2) := by
              rw [← hem, hd2, hseg]
              simp
            exact List.append_cancel_left h3
          subst hdelta
          rw [List.map_append, schedNodes_append_ok pol cal _ _ _ _ hrun]
          have hih := ih st1 stF d2 (fun x hx => hnd x (by simp [hx])) h hd2 (E ++ seg)
          rw [hih, List.append_assoc]

/-- The trailing fill is the padding of all declared A-tracks up to the
span. -/
theorem trailingDelays_eq (numQubits : Nat) (st : SchedState) (T : Nat) :
    trailingDelays numQubits st T = delaysFor st (List.range numQubits) T := rfl

/-- Re-running the scheduling core on its own output reproduces the output:
the emitted sequence (operations, start times and padding) and the span are
unchanged. -/
theorem coreRun_idem (pol : SchedPolicy) (cal : CalTable) (numQubits : Nat)
    (nodes : List Node) (em : List TimedNode) (T : Nat)
    (hnd : ∀ n ∈ nodes, n.qargs.Nodup)
    (h : coreRun pol cal numQubits nodes = Except.ok (em, T)) :
    coreRun pol cal numQubits (em.map TimedNode.node) = Except.ok (em, T) := by
  unfold coreRun at h
  cases hs : schedNodes pol cal SchedState.init nodes with
  | error e => rw [hs] at h; exact absurd h (by simp)
  | ok stF =>
      rw [hs] at h
      simp only [Except.ok.injEq, Prod.mk.injEq] at h
      obtain ⟨hem, hT⟩ := h
      have hreplay0 := schedNodes_replay pol cal nodes SchedState.init stF
        stF.emitted hnd hs (by simp [SchedState.init]) []
      have hreplay : schedNodes pol cal SchedState.init
          (List.map TimedNode.node stF.emitted) = Except.ok stF := by
        simp only [List.nil_append] at hreplay0
        exact hreplay0
      have hle : ∀ q ∈ List.range numQubits, stF.qta q ≤ spanOf numQubits stF := by
        intro q hq
        exact le_natMax_of_mem (List.mem_map_of_mem stF.qta hq)
      have hdelays := schedNodes_delays pol cal stF (spanOf numQubits stF)
        (List.range numQubits) stF (List.nodup_range numQubits)
        (fun _ _ => rfl) hle
      unfold coreRun
      rw [← hem, List.map_append]
      rw [schedNodes_append_ok pol cal _ _ _ _ hreplay]
      rw [trailingDelays_eq]
      rw [hdelays]
      have hqtaT : ∀ q ∈ List.range numQubits,
          (({ stF with
              qta := fun q => if q ∈ List.range numQubits then spanOf numQubits stF
                else stF.qta q,
              emitted := stF.emitted ++
                delaysFor stF (List.range numQubits) (spanOf numQubits stF) } :
            SchedState)).qta q = spanOf numQubits stF := by
        intro q hq
        show (if q ∈ List.range numQubits then spanOf numQubits stF else stF.qta q) = _
        rw [if_pos hq]
      have hspan2 : spanOf numQubits
          ({ stF with
              qta := fun q => if q ∈ List.range numQubits then spanOf numQubits stF
                else stF.qta q,
              emitted := stF.emitted ++
                delaysFor stF (List.range numQubits) (spanOf numQubits stF) } :
            SchedState) = spanOf numQubits stF := by
        cases hnq : numQubits with
        | zero => simp [spanOf, natMax]
        | succ k =>
            rw [← hnq]
            refine natMax_all_eq ?_ ?_
            · simp [hnq]
            · intro a ha
              obtain ⟨q, hq, haq⟩ := List.mem_map.mp ha
              rw [← haq]
              exact hqtaT q hq
      show Except.ok (_, spanOf numQubits _) = _
      rw [hspan2]
      have htrail2 : trailingDelays numQubits
          ({ stF with
              qta := fun q => if q ∈ List.range numQubits then spanOf numQubits stF
                else stF.qta q,
              emitted := stF.emitted ++
                delaysFor stF (List.range numQubits) (spanOf numQubits stF) } :
            SchedState) (spanOf numQubits stF) = [] := by
        rw [trailingDelays_eq]
        exact delaysFor_eq_nil _ _ _ (fun q hq => by
          rw [hqtaT q hq]
          exact Nat.lt_irrefl _)
      rw [htrail2, hT]
      refine congrArg Except.ok ?_
      refine Prod.ext ?_ rfl
      simp

/-- Idempotence of the earliest-first pass: re-running it on its own output
returns the identical result (same graph, same span, same start times). -/
theorem asap_run_idem (u : String) (dag : DAGCircuit) (r : SchedResult)
    (hnd : ∀ n ∈ dag.nodes, n.qargs.Nodup)
    (h : ASAPSchedule.run u dag = Except.ok r) :
    ASAPSchedule.run u r.dag = Except.ok r := by
  unfold ASAPSchedule.run at h
  by_cases hphys : physicalCheck dag = true
  · rw [if_pos hphys] at h
    cases hc : coreRun asapPolicy dag.calibrations dag.numQubits dag.nodes with
    | error e => rw [hc] at h; exact absurd h (by simp)
    | ok p =>
        obtain ⟨em, T⟩ := p
        rw [hc] at h
        simp only [Except.ok.injEq] at h
        subst h
        have hidem := coreRun_idem asapPolicy dag.calibrations dag.numQubits
          dag.nodes em T hnd hc
        unfold ASAPSchedule.run
        have hphys2 := hphys
        simp only [physicalCheck] at hphys2
        simp only [physicalCheck, hphys2, if_true, hidem]
  · rw [if_neg hphys] at h
    exact absurd h (by simp)

/-- Idempotence of the latest-first pass. -/
theorem alap_run_idem (u : String) (dag : DAGCircuit) (r : SchedResult)
    (hnd : ∀ n ∈ dag.nodes, n.qargs.Nodup)
    (h : ALAPSchedule.run u dag = Except.ok r) :
    ALAPSchedule.run u r.dag = Except.ok r := by
  unfold ALAPSchedule.run at h
  by_cases hphys : physicalCheck dag = true
  · rw [if_pos hphys] at h
    cases hc : coreRun alapPolicy dag.calibrations dag.numQubits dag.nodes.reverse with
    | error e => rw [hc] at h; exact absurd h (by simp)
    | ok p =>
        obtain ⟨em, T⟩ := p
        rw [hc] at h
        simp only [Except.ok.injEq] at h
        subst h
        have hidem := coreRun_idem alapPolicy dag.calibrations dag.numQubits
          dag.nodes.reverse em T (fun n hn => hnd n (List.mem_reverse.mp hn)) hc
        unfold ALAPSchedule.run
        have hphys2 := hphys
        simp only [physicalCheck] at hphys2
        simp only [physicalCheck, hphys2, if_true, List.reverse_reverse, hidem]
  · rw [if_neg hphys] at h
    exact absurd h (by simp)

/-- The pure fold only depends on the table pointwise. -/
theorem qtaFold_congr (cal : CalTable) :
    ∀ (L : List Node) (f g : Nat → Nat), (∀ q, f q = g q) →
      ∀ q, qtaFold cal f L q = qtaFold cal g L q := by
  intro L
  induction L with
  | nil => intro f g hfg q; exact hfg q
  | cons n rest ih =>
      intro f g hfg q
      show qtaFold cal _ rest q = qtaFold cal _ rest q
      refine ih _ _ ?_ q
      intro x
      have hmap : n.qargs.map f = n.qargs.map g :=
        List.map_congr_left (fun a _ => hfg a)
      by_cases hx : x ∈ n.qargs
      · simp [hx, hmap]
      · simp [hx, hfg x]

/-- On a graph with no B-track dependencies the loop computes exactly the
pure fold of the A-track timestamps. -/
theorem schedNodes_qta_noclbits (pol : SchedPolicy) (cal : CalTable) :
    ∀ (L : List Node) (st stF : SchedState),
      (∀ n ∈ L, n.cargs = [] ∧ n.op.conditionBits = []) →
      schedNodes pol cal st L = Except.ok stF →
      ∀ q, stF.qta q = qtaFold cal st.qta L q := by
  intro L
  induction L with
  | nil =>
      intro st stF _ h q
      cases h
      rfl
  | cons n rest ih =>
      intro st stF hcl h q
      simp only [schedNodes] at h
      cases hs : schedStep pol cal st n with
      | error e => rw [hs] at h; exact absurd h (by simp)
      | ok st1 =>
          rw [hs] at h
          obtain ⟨d, hres, hst1⟩ := schedStep_ok_inv pol cal st n st1 hs
          have hrd : rdur cal n = d := by
            unfold rdur
            rw [hres]
          obtain ⟨hcargs, hcond⟩ := hcl n (by simp)
          have hstart : nodeStart pol st n d = natMax (n.qargs.map st.qta) := by
            unfold nodeStart
            rw [hcargs, hcond]
            simp
          have hq1 : ∀ x, st1.qta x =
              if x ∈ n.qargs then natMax (n.qargs.map st.qta) + rdur cal n
              else st.qta x := by
            intro x
            rw [hst1, updState_qta, hstart, hrd]
          have hih := ih st1 stF (fun x hx => hcl x (by simp [hx])) h q
          rw [hih]
          show qtaFold cal st1.qta rest q = qtaFold cal _ rest q
          exact qtaFold_congr cal rest _ _ hq1 q

/-- One update step of the pure fold never decreases a timestamp. -/
theorem qtaFold_step_mono (cal : CalTable) (n : Node) (f : Nat → Nat) (q : Nat) :
    f q ≤ if q ∈ n.qargs then natMax (n.qargs.map f) + rdur cal n else f q := by
  by_cases hq : q ∈ n.qargs
  · rw [if_pos hq]
    exact Nat.le_trans (le_natMax_of_mem (List.mem_map_of_mem f hq))
      (Nat.le_add_right _ _)
  · rw [if_neg hq]

/-- The pure fold never decreases a timestamp. -/
theorem qtaFold_mono (cal : CalTable) :
    ∀ (L : List Node) (f : Nat → Nat) (q : Nat), f q ≤ qtaFold cal f L q := by
  intro L
  induction L with
  | nil => intro f q; exact Nat.le_refl _
  | cons n rest ih =>
      intro f q
      exact Nat.le_trans (qtaFold_step_mono cal n f q)
        (ih (fun x => if x ∈ n.qargs then natMax (n.qargs.map f) + rdur cal n
          else f x) q)

/-- Upper bound: the total duration of any dependency chain, on top of a
lower bound for the timestamp of some A-track of its first element, is a
lower bound for the final timestamp of any A-track of its last element. -/
theorem qtaFold_chain_le (cal : CalTable) :
    ∀ (L : List Node) (f : Nat → Nat) (h : Node) (c : List Node) (q b : Nat),
      (h :: c).Sublist L → (h :: c).Chain' shares → EndsOn (h :: c) q →
      (∃ q0 ∈ h.qargs, b ≤ f q0) →
      b + csum cal (h :: c) ≤ qtaFold cal f L q := by
  intro L
  induction L with
  | nil =>
      intro f h c q b hsub _ _ _
      exact absurd hsub (by simp)
  | cons n rest ih =>
      intro f h c q b hsub hchain hends hboost
      cases hsub with
      | cons _ hsub2 =>
          refine ih _ h c q b hsub2 hchain hends ?_
          obtain ⟨q0, hq0, hb⟩ := hboost
          exact ⟨q0, hq0, Nat.le_trans hb (qtaFold_step_mono cal n f q0)⟩
      | cons₂ _ hsub2 =>
          obtain ⟨q0, hq0, hb⟩ := hboost
          have hbstart : b ≤ natMax (n.qargs.map f) :=
            Nat.le_trans hb (le_natMax_of_mem (List.mem_map_of_mem f hq0))
          cases c with
          | nil =>
              obtain ⟨m, hm, hqm⟩ := hends
              simp only [List.getLast?_singleton, Option.some.injEq] at hm
              subst hm
              have hfq : qtaFold cal f (n :: rest) q =
                  qtaFold cal (fun x => if x ∈ n.qargs then
                    natMax (n.qargs.map f) + rdur cal n else f x) rest q := rfl
              rw [hfq]
              refine Nat.le_trans ?_ (qtaFold_mono cal rest _ q)
              show b + csum cal [n] ≤ if q ∈ n.qargs then
                natMax (n.qargs.map f) + rdur cal n else f q
              have hc1 : csum cal [n] = rdur cal n := by simp [csum]
              rw [hc1, if_pos hqm]
              exact Nat.add_le_add_right hbstart _
          | cons h2 c2 =>
              have hsh : shares n h2 ∧ (h2 :: c2).Chain' shares :=
                List.chain'_cons.mp hchain
              obtain ⟨q1, hq1n, hq1h2⟩ := hsh.1
              have hlast : (n :: h2 :: c2).getLast? = (h2 :: c2).getLast? :=
                List.getLast?_cons_cons
              have hends2 : EndsOn (h2 :: c2) q := by
                obtain ⟨m, hm, hqm⟩ := hends
                refine ⟨m, ?_, hqm⟩
                rw [← hlast]
                exact hm
              have hih := ih (fun x => if x ∈ n.qargs then
                  natMax (n.qargs.map f) + rdur cal n else f x)
                h2 c2 q (b + rdur cal n) hsub2 hsh.2 hends2
                ⟨q1, hq1h2, by
                  show b + rdur cal n ≤ if q1 ∈ n.qargs then
                    natMax (n.qargs.map f) + rdur cal n else f q1
                  rw [if_pos hq1n]
                  exact Nat.add_le_add_right hbstart _⟩
              show b + csum cal (n :: h2 :: c2) ≤ qtaFold cal _ rest q
              have hsum : csum cal (n :: h2 :: c2) =
                  rdur cal n + csum cal (h2 :: c2) := by simp [csum]
              rw [hsum, ← Nat.add_assoc]
              exact hih

/-- Every final timestamp of the pure fold is either untouched or realised
by some dependency chain through the processed nodes. -/
theorem qtaFold_attained (cal : CalTable) :
    ∀ (L : List Node) (f : Nat → Nat) (q : Nat),
      qtaFold cal f L q = f q ∨
      ∃ h c q0, (h :: c).Sublist L ∧ (h :: c).Chain' shares ∧
        (∀ x ∈ h :: c, x.qargs ≠ []) ∧ EndsOn (h :: c) q ∧ q0 ∈ h.qargs ∧
        qtaFold cal f L q = f q0 + csum cal (h :: c) := by
  intro L
  induction L with
  | nil => intro f q; exact Or.inl rfl
  | cons n rest ih =>
      intro f q
      have hstep : qtaFold cal f (n :: rest) q =
          qtaFold cal (fun x => if x ∈ n.qargs then
            natMax (n.qargs.map f) + rdur cal n else f x) rest q := rfl
      rcases ih (fun x => if x ∈ n.qargs then
          natMax (n.qargs.map f) + rdur cal n else f x) q with hbase | hchain
      · by_cases hq : q ∈ n.qargs
        · have hne : n.qargs ≠ [] := fun he => by simp [he] at hq
          have hmapne : n.qargs.map f ≠ [] := by
            simp [List.map_eq_nil_iff, hne]
          obtain ⟨a, ha, hamax⟩ := natMax_mem hmapne
          obtain ⟨q0, hq0, haq0⟩ := List.mem_map.mp ha
          refine Or.inr ⟨n, [], q0, ?_, ?_, ?_, ?_, hq0, ?_⟩
          · exact List.cons_sublist_cons.mpr (List.nil_sublist rest)
          · simp
          · intro x hx
            simp only [List.mem_singleton] at hx
            subst hx
            exact hne
          · exact ⟨n, by simp, hq⟩
          · rw [hstep, hbase]
            show (if q ∈ n.qargs then natMax (n.qargs.map f) + rdur cal n else f q) = _
            rw [if_pos hq, hamax, ← haq0]
            simp [csum]
        · refine Or.inl ?_
          rw [hstep, hbase]
          show (if q ∈ n.qargs then natMax (n.qargs.map f) + rdur cal n else f q) = f q
          rw [if_neg hq]
      · obtain ⟨h, c, q0, hsub, hch, hne, hends, hq0, hval⟩ := hchain
        by_cases hq0n : q0 ∈ n.qargs
        · have hne2 : n.qargs ≠ [] := fun he => by simp [he] at hq0n
          have hmapne : n.qargs.map f ≠ [] := by
            simp [List.map_eq_nil_iff, hne2]
          obtain ⟨a, ha, hamax⟩ := natMax_mem hmapne
          obtain ⟨q1, hq1, haq1⟩ := List.mem_map.mp ha
          refine Or.inr ⟨n, h :: c, q1, ?_, ?_, ?_, ?_, hq1, ?_⟩
          · exact List.cons_sublist_cons.mpr hsub
          · exact List.chain'_cons.mpr ⟨⟨q0, hq0n, hq0⟩, hch⟩
          · intro x hx
            rcases List.mem_cons.mp hx with hx | hx
            · subst hx; exact hne2
            · exact hne x hx
          · obtain ⟨m, hm, hqm⟩ := hends
            refine ⟨m, ?_, hqm⟩
            rw [List.getLast?_cons_cons]
            exact hm
          · rw [hstep, hval]
            show (if q0 ∈ n.qargs then natMax (n.qargs.map f) + rdur cal n else f q0) +
              csum cal (h :: c) = _
            rw [if_pos hq0n, hamax, ← haq1]
            simp [csum, Nat.add_assoc]
        · refine Or.inr ⟨h, c, q0, List.sublist_cons_of_sublist n hsub, hch, hne, hends, hq0, ?_⟩
          rw [hstep, hval]
          show (if q0 ∈ n.qargs then natMax (n.qargs.map f) + rdur cal n else f q0) +
            csum cal (h :: c) = _
          rw [if_neg hq0n]

/-- One direction of the span symmetry: every chain of the forward walk is a
chain of the reverse walk with the same total duration. -/
theorem spanF_le_reverse (cal : CalTable) (numQubits : Nat) (L : List Node)
    (hwf : ∀ n ∈ L, ∀ q ∈ n.qargs, q < numQubits) :
    spanF cal numQubits L ≤ spanF cal numQubits L.reverse := by
  refine natMax_le ?_
  intro v hv
  obtain ⟨q, hq, hvq⟩ := List.mem_map.mp hv
  subst hvq
  rcases qtaFold_attained cal L (fun _ => 0) q with hbase | hchain
  · rw [hbase]
    exact Nat.zero_le _
  · obtain ⟨h, c, q0, hsub, hch, hne, hends, hq0, hval⟩ := hchain
    rw [hval]
    have hrsub : ((h :: c).reverse).Sublist L.reverse := hsub.reverse
    have hrch : ((h :: c).reverse).Chain' shares := by
      rw [List.chain'_reverse]
      exact hch.imp (fun a b hab => by
        obtain ⟨x, hxa, hxb⟩ := hab
        exact ⟨x, hxb, hxa⟩)
    have hrlast : ((h :: c).reverse).getLast? = some h := by
      rw [List.getLast?_reverse]
      rfl
    cases hrc : (h :: c).reverse with
    | nil => exact absurd hrc (by simp)
    | cons rh rc2 =>
        have hrhne : rh.qargs ≠ [] := by
          have hrhmem : rh ∈ h :: c := by
            rw [← List.mem_reverse, hrc]
            simp
          exact hne rh hrhmem
        obtain ⟨q2, hq2⟩ := List.exists_mem_of_ne_nil rh.qargs hrhne
        have hle := qtaFold_chain_le cal L.reverse (fun _ => 0) rh rc2 q0 0
          (hrc ▸ hrsub) (hrc ▸ hrch)
          (by rw [← hrc]; exact ⟨h, hrlast, hq0⟩)
          ⟨q2, hq2, Nat.zero_le _⟩
        have hcsum : csum cal (rh :: rc2) = csum cal (h :: c) := by
          rw [← hrc]
          unfold csum
          rw [List.map_reverse, List.sum_reverse]
        rw [hcsum] at hle
        simp only [Nat.zero_add] at hle
        have hq0lt : q0 < numQubits := hwf h (hsub.mem (by simp)) q0 hq0
        refine Nat.le_trans ?_ (le_natMax_of_mem
          (List.mem_map_of_mem (qtaFold cal (fun _ => 0) L.reverse)
            (List.mem_range.mpr hq0lt)))
        show (fun _ => (0 : Nat)) q0 + csum cal (h :: c) ≤ _
        simp only [Nat.zero_add]
        exact hle

/-- The two walk directions compute the same span on every graph whose
nodes' A-tracks are among the declared ones. -/
theorem spanF_reverse (cal : CalTable) (numQubits : Nat) (L : List Node)
    (hwf : ∀ n ∈ L, ∀ q ∈ n.qargs, q < numQubits) :
    spanF cal numQubits L = spanF cal numQubits L.reverse := by
  refine Nat.le_antisymm (spanF_le_reverse cal numQubits L hwf) ?_
  have h2 := spanF_le_reverse cal numQubits L.reverse
    (fun n hn => hwf n (List.mem_reverse.mp hn))
  rw [List.reverse_reverse] at h2
  exact h2

/-- On a graph with no B-track dependencies the earliest-first span is the
pure-fold span of the forward node order. -/
theorem asap_duration_spanF (u : String) (dag : DAGCircuit) (r : SchedResult)
    (hcl : ∀ n ∈ dag.nodes, n.cargs = [] ∧ n.op.conditionBits = [])
    (h : ASAPSchedule.run u dag = Except.ok r) :
    r.dag.duration = some (spanF dag.calibrations dag.numQubits dag.nodes) := by
  unfold ASAPSchedule.run at h
  by_cases hphys : physicalCheck dag = true
  · rw [if_pos hphys] at h
    cases hc : coreRun asapPolicy dag.calibrations dag.numQubits dag.nodes with
    | error e => rw [hc] at h; exact absurd h (by simp)
    | ok p =>
        obtain ⟨em, T⟩ := p
        rw [hc] at h
        simp only [Except.ok.injEq] at h
        subst h
        show some T = _
        unfold coreRun at hc
        cases hs : schedNodes asapPolicy dag.calibrations SchedState.init dag.nodes with
        | error e => rw [hs] at hc; exact absurd hc (by simp)
        | ok stF =>
            rw [hs] at hc
            simp only [Except.ok.injEq, Prod.mk.injEq] at hc
            rw [← hc.2]
            refine congrArg some ?_
            unfold spanOf spanF
            refine congrArg natMax (List.map_congr_left ?_)
            intro q _
            rw [schedNodes_qta_noclbits asapPolicy dag.calibrations dag.nodes
              SchedState.init stF hcl hs q]
            exact qtaFold_congr dag.calibrations dag.nodes _ _ (fun _ => rfl) q
  · rw [if_neg hphys] at h
    exact absurd h (by simp)

/-- On a graph with no B-track dependencies the latest-first span is the
pure-fold span of the reverse node order. -/
theorem alap_duration_spanF (u : String) (dag : DAGCircuit) (r : SchedResult)
    (hcl : ∀ n ∈ dag.nodes, n.cargs = [] ∧ n.op.conditionBits = [])
    (h : ALAPSchedule.run u dag = Except.ok r) :
    r.dag.duration =
      some (spanF dag.calibrations dag.numQubits dag.nodes.reverse) := by
  unfold ALAPSchedule.run at h
  by_cases hphys : physicalCheck dag = true
  · rw [if_pos hphys] at h
    cases hc : coreRun alapPolicy dag.calibrations dag.numQubits dag.nodes.reverse with
    | error e => rw [hc] at h; exact absurd h (by simp)
    | ok p =>
        obtain ⟨em, T⟩ := p
        rw [hc] at h
        simp only [Except.ok.injEq] at h
        subst h
        show some T = _
        unfold coreRun at hc
        cases hs : schedNodes alapPolicy dag.calibrations SchedState.init
            dag.nodes.reverse with
        | error e => rw [hs] at hc; exact absurd hc (by simp)
        | ok stF =>
            rw [hs] at hc
            simp only [Except.ok.injEq, Prod.mk.injEq] at hc
            rw [← hc.2]
            refine congrArg some ?_
            unfold spanOf spanF
            refine congrArg natMax (List.map_congr_left ?_)
            intro q _
            rw [schedNodes_qta_noclbits alapPolicy dag.calibrations dag.nodes.reverse
              SchedState.init stF (fun n hn => hcl n (List.mem_reverse.mp hn)) hs q]
            exact qtaFold_congr dag.calibrations dag.nodes.reverse _ _ (fun _ => rfl) q
  · rw [if_neg hphys] at h
    exact absurd h (by simp)

/-- Claim C1, amended.  As stated the claim is refuted by
`c1_span_counterexample`: with B-track (classical) dependencies the two
passes can compute different spans.  What holds is: (1) on every graph whose
nodes have no B-track arguments and no conditions (and whose A-track
arguments are among the declared tracks), the earliest-first and
latest-first passes compute the same total span whenever both succeed; and
(2) re-running either pass on its own already-scheduled output — whose
nodes' A-track argument lists are duplicate-free, as every well-formed
graph's are — returns the identical result: the same graph, the same span,
and the same start time for every node (the whole `SchedResult` is
reproduced, so no start time and no padding changes). -/
theorem c1_amended_span_and_idempotence :
    (∀ (u1 u2 : String) (dag : DAGCircuit) (r1 r2 : SchedResult),
       (∀ n ∈ dag.nodes, n.cargs = [] ∧ n.op.conditionBits = []) →
       (∀ n ∈ dag.nodes, ∀ q ∈ n.qargs, q < dag.numQubits) →
       ASAPSchedule.run u1 dag = Except.ok r1 →
       ALAPSchedule.run u2 dag = Except.ok r2 →
       r1.dag.duration = r2.dag.duration) ∧
    (∀ (u : String) (dag : DAGCircuit) (r : SchedResult),
       (∀ n ∈ dag.nodes, n.qargs.Nodup) →
       ASAPSchedule.run u dag = Except.ok r →
       ASAPSchedule.run u r.dag = Except.ok r) ∧
    (∀ (u : String) (dag : DAGCircuit) (r : SchedResult),
       (∀ n ∈ dag.nodes, n.qargs.Nodup) →
       ALAPSchedule.run u dag = Except.ok r →
       ALAPSchedule.run u r.dag = Except.ok r) := by
  refine ⟨?_, asap_run_idem, alap_run_idem⟩
  intro u1 u2 dag r1 r2 hcl hwf h1 h2
  rw [asap_duration_spanF u1 dag r1 hcl h1, alap_duration_spanF u2 dag r2 hcl h2]
  exact congrArg some (spanF_reverse dag.calibrations dag.numQubits dag.nodes hwf)

/-- Witness for the amended C1 at the 3-node chain: equal spans for both
passes and idempotence of each on its own output. -/
theorem c1_amended_span_and_idempotence_witness :
    chainResult.dag.duration = chainResultAlap.dag.duration ∧
    ASAPSchedule.run "dt" chainResult.dag = Except.ok chainResult ∧
    ALAPSchedule.run "dt" chainResultAlap.dag = Except.ok chainResultAlap :=
  ⟨c1_amended_span_and_idempotence.1 "dt" "dt" chainDag chainResult
      chainResultAlap (by decide) (by decide) (by rfl) (by rfl),
   c1_amended_span_and_idempotence.2.1 "dt" chainDag chainResult (by decide) (by rfl),
   c1_amended_span_and_idempotence.2.2 "dt" chainDag chainResultAlap (by decide) (by rfl)⟩
